import Mathlib

/-!
Step-instrumented sorting engine and blog snippets: a verification development.

This file embeds, as executable Lean definitions, the generator-based sorting
visualizer code from `src/data/blog/sorting-visualizer.mdx` (bubble sort, merge
sort, the driver loop, random-array generation, the algorithm registry) and the
two Part 1 solutions from `src/data/blog/2023-aoc-day-2.mdx`, and proves the
behavioural properties stated for them.

Modelling conventions:
* A generator run is modelled by the pair of the list of `yield`ed values and
  the `return`ed value.  Each yielded `StepState` snapshots the mutable array
  at the instant of the `yield` (the consumer renders it immediately).
* JS arrays of numbers are `List Int`; array reads and writes use JS index
  semantics via `getI` and `setI` (indices are JS numbers, hence `Int`).
  Out-of-range reads return 0 in the model (JS would produce `undefined`);
  no reachable execution of the embedded code performs such a read.
* A JS object literal `Record<number, string>` is an association list built
  with `recordSet`, so that a later computed key overwrites an earlier equal
  key, as in JS.
-/

/-- JS array read `arr[k]` for a numeric index. Out-of-range (never reached by
the embedded algorithms) yields the default 0. -/
def getI (a : List Int) (k : Int) : Int :=
  if 0 ≤ k then a.getD k.toNat 0 else 0

/-- JS array write `arr[k] = v`: in range it updates the slot; past the end it
extends the array (JS fills the gap with holes, modelled as 0); a negative
index leaves the array part untouched. -/
def setI (a : List Int) (k : Int) (v : Int) : List Int :=
  if 0 ≤ k then
    if k.toNat < a.length then a.set k.toNat v
    else a ++ List.replicate (k.toNat - a.length) 0 ++ [v]
  else a

/-- Adding one computed key to a JS object literal: an existing equal key is
overwritten, otherwise the entry is appended. -/
def recordSet (r : List (Int × String)) (k : Int) (v : String) : List (Int × String) :=
  if r.any (fun p => p.1 == k) then r.map (fun p => if p.1 == k then (k, v) else p)
  else r ++ [(k, v)]

/-- The object literal `{ [k1]: v1 }`. -/
def record1 (k1 : Int) (v1 : String) : List (Int × String) :=
  recordSet [] k1 v1

/-- The object literal `{ [k1]: v1, [k2]: v2 }`. -/
def record2 (k1 : Int) (v1 : String) (k2 : Int) (v2 : String) : List (Int × String) :=
  recordSet (record1 k1 v1) k2 v2

/-- The object literal `{ [k1]: v1, [k2]: v2, [k3]: v3 }`. -/
def record3 (k1 : Int) (v1 : String) (k2 : Int) (v2 : String) (k3 : Int) (v3 : String) :
    List (Int × String) :=
  recordSet (record2 k1 v1 k2 v2) k3 v3

/-- From `types.ts`: `StepState = { result: number[]; colors?: Record<number, string> }`.
An absent `colors` property is modelled as the empty record. -/
structure StepState where
  result : List Int
  colors : List (Int × String)
deriving DecidableEq

/-- Body of the inner loop of `bubbleSort` (`bubble-sort.ts`): compare
`arr[j] > arr[j+1]`; yield twice (pre- and post-swap) on a swap, once
otherwise.  Returns the yielded steps and the array afterwards. -/
def bubbleBody (a : List Int) (j : Int) : List StepState × List Int :=
  if getI a j > getI a (j + 1) then
    let s1 : StepState := ⟨a, record2 j "yellow" (j + 1) "green"⟩
    let temp := getI a j
    let a1 := setI a j (getI a (j + 1))
    let a2 := setI a1 (j + 1) temp
    ([s1, ⟨a2, record2 j "green" (j + 1) "yellow"⟩], a2)
  else
    ([⟨a, record2 j "yellow" (j + 1) "yellow"⟩], a)

/-- Inner loop `for (let j = 0; j < arr.length - i - 1; j++)` of `bubbleSort`;
the bound `m = arr.length - i - 1` is passed as a parameter (the array length
is invariant over a run, which is proved below). -/
def bubbleInner (a : List Int) (m j : Int) : List StepState × List Int :=
  if _h : j < m then
    let b := bubbleBody a j
    let r := bubbleInner b.2 m (j + 1)
    (b.1 ++ r.1, r.2)
  else ([], a)
termination_by (m - j).toNat
decreasing_by omega

/-- Outer loop `for (let i = 0; i < arr.length; i++)` of `bubbleSort`. -/
def bubbleOuter (a : List Int) (n i : Int) : List StepState × List Int :=
  if _h : i < n then
    let p := bubbleInner a (n - i - 1) 0
    let r := bubbleOuter p.2 n (i + 1)
    (p.1 ++ r.1, r.2)
  else ([], a)
termination_by (n - i).toNat
decreasing_by omega

/-- From `bubble-sort.ts`: `function* bubbleSort(arr)` — the full run: yielded steps
plus the returned `{ result: arr }`. -/
def bubbleSort (arr : List Int) : List StepState × StepState :=
  let r := bubbleOuter arr (arr.length : Int) 0
  (r.1, ⟨r.2, []⟩)

/-- Helper `function* push(index)` inside `merge()`: yield
`{ result: arr, colors: { [middle]: "blue", [index]: "red" } }`, then push
`arr[index]` onto the scratch list.  Returns the step and the new scratch. -/
def push (a : List Int) (middle idx : Int) (sorted : List Int) : StepState × List Int :=
  (⟨a, record2 middle "blue" idx "red"⟩, sorted ++ [getI a idx])

/-- First while loop of `merge()`: `while (left <= middle && right <= j)`.
Returns (steps, scratch, left, right) at loop exit.  The array is only read. -/
def mergeLoop1 (a : List Int) (middle j left right : Int) (sorted : List Int) :
    List StepState × List Int × Int × Int :=
  if h1 : left ≤ middle ∧ right ≤ j then
    if getI a left ≤ getI a right then
      let p := push a middle left sorted
      let r := mergeLoop1 a middle j (left + 1) right p.2
      (p.1 :: r.1, r.2)
    else
      let p := push a middle right sorted
      let r := mergeLoop1 a middle j left (right + 1) p.2
      (p.1 :: r.1, r.2)
  else ([], sorted, left, right)
termination_by ((middle + 1 - left) + (j + 1 - right)).toNat
decreasing_by all_goals omega

/-- Second while loop of `merge()`: `while (left <= middle)`. -/
def mergeLoop2 (a : List Int) (middle left : Int) (sorted : List Int) :
    List StepState × List Int :=
  if _h : left ≤ middle then
    let p := push a middle left sorted
    let r := mergeLoop2 a middle (left + 1) p.2
    (p.1 :: r.1, r.2)
  else ([], sorted)
termination_by (middle + 1 - left).toNat
decreasing_by omega

/-- Third while loop of `merge()`: `while (right <= j)`. -/
def mergeLoop3 (a : List Int) (middle j right : Int) (sorted : List Int) :
    List StepState × List Int :=
  if _h : right ≤ j then
    let p := push a middle right sorted
    let r := mergeLoop3 a middle j (right + 1) p.2
    (p.1 :: r.1, r.2)
  else ([], sorted)
termination_by (j + 1 - right).toNat
decreasing_by omega

/-- Write-back loop of `merge()`: `for (let k = 0; k < sorted.length; k++)`,
yielding `{ result: arr, colors: { [i+k]: "yellow" } }` before each write
`arr[i+k] = sorted[k]`.  The recursion consumes `sorted` while `pos = i + k`
advances.  Returns the steps and the mutated array. -/
def writeBackGo (a : List Int) (pos : Int) (rest : List Int) : List StepState × List Int :=
  match rest with
  | [] => ([], a)
  | v :: vs =>
    let s : StepState := ⟨a, record1 pos "yellow"⟩
    let r := writeBackGo (setI a pos v) (pos + 1) vs
    (s :: r.1, r.2)

/-- From `merge-sort.ts`: `function* merge(arr, i, middle, j)` — run of the merge
generator: the three selection loops, then the write-back loop, then
`return { result: arr }`. -/
def merge (a : List Int) (i middle j : Int) : List StepState × StepState :=
  let L1 := mergeLoop1 a middle j i (middle + 1) []
  let L2 := mergeLoop2 a middle L1.2.2.1 L1.2.1
  let L3 := mergeLoop3 a middle j L1.2.2.2 L2.2
  let W := writeBackGo a i L3.2
  (L1.1 ++ L2.1 ++ L3.1 ++ W.1, ⟨W.2, []⟩)

/-- From `merge-sort.ts`: `function* mergeSort(arr, i, j)` (explicit bounds).  It
computes `middle`, yields the split-boundary step, returns at once when
`j <= i`, and otherwise delegates (`yield*`) to the two recursive calls and to
`merge`, discarding their return values, and finally returns
`{ result: arr }`.  The mutable array is threaded through the `result` field
of each returned delegate value (the same live array in JS). -/
def mergeSortFrom (a : List Int) (i j : Int) : List StepState × StepState :=
  let middle := (j - i).fdiv 2 + i
  let s0 : StepState := ⟨a, record3 i "yellow" middle "blue" j "green"⟩
  if _h : j ≤ i then ([s0], ⟨a, []⟩)
  else
    let L := mergeSortFrom a i middle
    let R := mergeSortFrom L.2.result (middle + 1) j
    let M := merge R.2.result i middle j
    (s0 :: (L.1 ++ R.1 ++ M.1), ⟨M.2.result, []⟩)
termination_by (j - i).toNat
decreasing_by
  all_goals rw [Int.fdiv_eq_ediv _ (by omega)]
  all_goals omega

/-- The call `mergeSort(arr)` with the default bounds `i = 0`, `j = arr.length - 1`. -/
def mergeSort (arr : List Int) : List StepState × StepState :=
  mergeSortFrom arr 0 ((arr.length : Int) - 1)

/-! ## The driver (App.tsx) -/

/-- The `IteratorResult` held in React state: `{ value, done }`. -/
structure SortingState where
  value : StepState
  done : Bool
deriving DecidableEq

/-- Driver state: the not-yet-produced steps of the generator, its return
value, and the `sortingState` last obtained from `generator.next()`. -/
structure Driver where
  pending : List StepState
  finalValue : StepState
  sortingState : SortingState
deriving DecidableEq

/-- One `generator.next()` call: the next yielded value with `done: false`, or the
return value with `done: true` once the yields are exhausted. -/
def genNext (pending : List StepState) (finalValue : StepState) :
    SortingState × List StepState :=
  match pending with
  | s :: rest => (⟨s, false⟩, rest)
  | [] => (⟨finalValue, true⟩, [])

/-- The initial `useState(() => generator.next())`: the driver after the initial call. -/
def initDriver (run : List StepState × StepState) : Driver :=
  let n := genNext run.1 run.2
  ⟨n.2, run.2, n.1⟩

/-- The `sort` callback of App.tsx:
`if (!sortingState.done) setSortingState(generator.next())`. -/
def advanceStep (d : Driver) : Driver :=
  if d.sortingState.done then d
  else
    let n := genNext d.pending d.finalValue
    ⟨n.2, d.finalValue, n.1⟩

/-! ## Random array generation (make-random-array.ts) -/

/-- Loop of `makeRandomArray`; `rand i` models the value
`Math.round(Math.random() * 1000)` drawn at iteration `i`. -/
def makeRandomArrayGo (rand : Int → Int) (len i : Int) (acc : List Int) : List Int :=
  if _h : i < len then makeRandomArrayGo rand len (i + 1) (acc ++ [rand i]) else acc
termination_by (len - i).toNat
decreasing_by omega

/-- From `make-random-array.ts`: `makeRandomArray(length)`, parametrised by the
stream of random draws. -/
def makeRandomArray (rand : Int → Int) (len : Int) : List Int :=
  makeRandomArrayGo rand len 0 []

/-! ## Algorithm registry and selection -/

/-- The keys of the `algorithms` / `algorithmNames` registry from the
"Algorithm selector" section. -/
def algorithmKeys : List String :=
  ["bubbleSort", "insertionSort", "mergeSort", "quickSort", "inPlaceMergeSort"]

inductive PlaybackMode where
  | stopped
  | slow
  | fast
deriving DecidableEq

inductive SortError where
  | UnknownAlgorithm
  | InvalidArrayLength
deriving DecidableEq

/-- DriverState of the spec: selected key, in-flight producer, current step,
completion flag and playback mode. -/
structure DriverState where
  selectedAlgorithmKey : String
  currentProducer : Option Driver
  currentStep : Option StepState
  isDone : Bool
  playbackMode : PlaybackMode
deriving DecidableEq

/-- Modelled from the spec: `selectAlgorithm(key)` "validates `key` exists in
the registry; fails with an `UnknownAlgorithm` condition otherwise; on
success, discards any in-flight producer and stops autoplay".  The hook that
implements selection is not among the repository sources (only the registry
and the React sketch are), so the operation is modelled from these words; on
failure no new state is produced, so the caller keeps the old state. -/
def selectAlgorithm (d : DriverState) (key : String) : Except SortError DriverState :=
  if key ∈ algorithmKeys then
    .ok { d with selectedAlgorithmKey := key, currentProducer := none,
                 playbackMode := .stopped }
  else
    .error .UnknownAlgorithm

/-! ## Advent of Code 2023 day 2 (2023-aoc-day-2.mdx) -/

/-- The whitespace characters JS `trim` and `parseInt` skip (the ASCII ones;
no input in scope contains the further Unicode space characters). -/
def isJsSpace (c : Char) : Bool :=
  c == ' ' || c == '\t' || c == '\n' || c == '\r'

/-- JS `String.prototype.trim`: strip leading and trailing whitespace.
Defined over the character list so that concrete inputs evaluate. -/
def jsTrim (s : String) : String :=
  ⟨((s.toList.dropWhile isJsSpace).reverse.dropWhile isJsSpace).reverse⟩

/-- Worker for `jsSplit`: scan for the separator, cutting where it occurs.
The fuel argument (initially the length of the string, spent one character
per step) makes the recursion structural, so concrete inputs evaluate by
kernel reduction; it never runs out for a non-empty separator. -/
def jsSplitGo (sep : List Char) : Nat → List Char → List Char → List (List Char)
  | _, [], acc => [acc.reverse]
  | 0, s, acc => [acc.reverse ++ s]
  | fuel + 1, c :: rest, acc =>
    if sep.isPrefixOf (c :: rest) then
      acc.reverse :: jsSplitGo sep fuel (List.drop sep.length (c :: rest)) []
    else
      jsSplitGo sep fuel rest (c :: acc)

/-- JS `String.prototype.split` with a non-empty string separator:
non-overlapping left-to-right cuts; `"".split(sep) = [""]` and a leading or
trailing separator produces empty fragments, as in JS.  (No call site uses an
empty separator; that case is returned unsplit.) -/
def jsSplit (s sep : String) : List String :=
  if sep.isEmpty then [s]
  else (jsSplitGo sep.toList s.toList.length s.toList []).map (fun l => ⟨l⟩)

/-- JS `parseInt(s)` (radix 10): skip leading whitespace, optional sign,
longest digit prefix; `none` models `NaN`. -/
def jsParseInt (s : String) : Option Int :=
  let t := jsTrim s
  let p : Int × List Char :=
    match t.toList with
    | '-' :: rest => (-1, rest)
    | '+' :: rest => (1, rest)
    | l => (1, l)
  let digits := p.2.takeWhile Char.isDigit
  if digits.isEmpty then none
  else some (p.1 * digits.foldl (fun n c => n * 10 + ((c.toNat : Int) - 48)) 0)

/-- JS `num > k` where `num` may be `NaN` (`none`): `NaN > k` is false. -/
def optGt (o : Option Int) (k : Int) : Bool :=
  match o with
  | some n => k < n
  | none => false

/-- JS `num <= k` where `num` may be `NaN`: `NaN <= k` is false. -/
def optLe (o : Option Int) (k : Int) : Bool :=
  match o with
  | some n => n ≤ k
  | none => false

/-- JS `sum + x` where either side may be `NaN`. -/
def jsAdd (a b : Option Int) : Option Int :=
  match a, b with
  | some x, some y => some (x + y)
  | _, _ => none

/-- JS `Math.max(a, b)` where either side may be `NaN`. -/
def jsMax (a b : Option Int) : Option Int :=
  match a, b with
  | some x, some y => some (max x y)
  | _, _ => none

/-- JS `s.replace(pat, repl)` with a string pattern: replaces only the first
occurrence. -/
def jsReplaceFirst (s pat repl : String) : String :=
  match jsSplit s pat with
  | [] => s
  | [_] => s
  | p :: rest => p ++ repl ++ String.intercalate pat rest

/-- Loop body of `checkReveal`: one `"count color"` entry; the destructuring
`[numStr, color] = ball.split(" ")` takes the first two fragments (a missing
one is `undefined` in JS; the model uses `""`, which also matches no colour
name). -/
def checkBall (ball : String) : Bool :=
  let parts := jsSplit ball " "
  let num := jsParseInt (parts.getD 0 "")
  let color := parts.getD 1 ""
  !(color == "red" && optGt num 12) &&
  !(color == "green" && optGt num 13) &&
  !(color == "blue" && optGt num 14)

/-- The first solution has `checkReveal(str)`: the early-`return false` loop is the
conjunction of `checkBall` over the comma-separated entries. -/
def checkReveal (str : String) : Bool :=
  (jsSplit str ", ").all checkBall

/-- First `part1(input)` of the post: a game counts when every reveal passes
`checkReveal`.  The running JS `sum` can in principle become `NaN`, hence
`Option Int`. -/
def part1First (input : String) : Option Int :=
  (jsSplit input "\n").foldl
    (fun sum game =>
      let parts := jsSplit game ": "
      let gameText := parts.getD 0 ""
      let infoText := parts.getD 1 ""
      let id := jsTrim (jsReplaceFirst gameText "Game " "")
      let possible := (jsSplit infoText "; ").all checkReveal
      if possible then jsAdd sum (jsParseInt id) else sum)
    (some 0)

/-- The `leastNumOfBalls` record of the second solution. -/
structure BallCounts where
  red : Option Int
  blue : Option Int
  green : Option Int
deriving DecidableEq

/-- Inner-loop body of the second solution:
`leastNumOfBalls[color] = Math.max(leastNumOfBalls[color], num)`.  A colour
other than the three fields creates a JS property that is never read, so the
model leaves the record unchanged. -/
def applyBall (acc : BallCounts) (ball : String) : BallCounts :=
  let parts := jsSplit ball " "
  let num := jsParseInt (parts.getD 0 "")
  let color := parts.getD 1 ""
  if color == "red" then { acc with red := jsMax acc.red num }
  else if color == "green" then { acc with green := jsMax acc.green num }
  else if color == "blue" then { acc with blue := jsMax acc.blue num }
  else acc

/-- Second `part1(input)` of the post: per game, fold the per-colour maxima
over all reveals, then compare against the limits 12 / 13 / 14. -/
def part1Second (input : String) : Option Int :=
  (jsSplit input "\n").foldl
    (fun sum game =>
      let parts := jsSplit game ": "
      let gameText := parts.getD 0 ""
      let infoText := parts.getD 1 ""
      let id := jsTrim (jsReplaceFirst gameText "Game " "")
      let reveals := jsSplit infoText "; "
      let least := reveals.foldl
        (fun acc reveal => (jsSplit reveal ", ").foldl applyBall acc)
        ⟨some 0, some 0, some 0⟩
      if optLe least.red 12 && optLe least.green 13 && optLe least.blue 14 then
        jsAdd sum (jsParseInt id)
      else sum)
    (some 0)

/-- A `"count color"` entry is well formed when it is exactly a parseable
count followed by one of the three colour names. -/
def wellFormedBall (ball : String) : Bool :=
  let parts := jsSplit ball " "
  parts.length == 2 &&
  (jsParseInt (parts.getD 0 "")).isSome &&
  (parts.getD 1 "" == "red" || parts.getD 1 "" == "green" || parts.getD 1 "" == "blue")

/-- A well-formed game line: `"Game N: "` prefix with a parseable id, then
semicolon-separated reveals of well-formed comma-separated entries. -/
def wellFormedLine (game : String) : Bool :=
  let parts := jsSplit game ": "
  parts.length == 2 &&
  (jsParseInt (jsTrim (jsReplaceFirst (parts.getD 0 "") "Game " ""))).isSome &&
  (jsSplit (parts.getD 1 "") "; ").all
    (fun reveal => (jsSplit reveal ", ").all wellFormedBall)

/-- A well-formed puzzle input: every line is a well-formed game line. -/
def wellFormedInput (input : String) : Bool :=
  (jsSplit input "\n").all wellFormedLine

/-- The acceptance test of the second solution, as a function of the
accumulated `leastNumOfBalls` record. -/
def withinLimits (c : BallCounts) : Bool :=
  optLe c.red 12 && optLe c.green 13 && optLe c.blue 14

/-! ## Specification-side pure functions used to state the theorems -/

/-- The segment `arr[l..r]` (inclusive JS index bounds) as a list. -/
def sliceRange (a : List Int) (l r : Int) : List Int :=
  if h : l ≤ r then getI a l :: sliceRange a (l + 1) r else []
termination_by (r + 1 - l).toNat
decreasing_by omega

/-- One pure bubble pass: carry the larger of each adjacent pair rightwards. -/
def bubbleF : List Int → List Int
  | x :: y :: t => if x > y then y :: bubbleF (x :: t) else x :: bubbleF (y :: t)
  | l => l
termination_by l => l.length
decreasing_by all_goals simp

/-- Number of steps one bubble pass yields: one per comparison in order, two
per comparison out of order. -/
def passCount : List Int → Nat
  | x :: y :: t => if x > y then 2 + passCount (x :: t) else 1 + passCount (y :: t)
  | _ => 0
termination_by l => l.length
decreasing_by all_goals simp

/-- One bubble pass applied to the first `L` slots of the array. -/
def passF (a : List Int) (L : Nat) : List Int :=
  bubbleF (a.take L) ++ a.drop L

/-- Pure count of the steps the bubble-sort producer yields. -/
def bubbleCountGo (a : List Int) (n i : Int) : Nat :=
  if _h : i < n then
    passCount (a.take (n - i).toNat) + bubbleCountGo (passF a (n - i).toNat) n (i + 1)
  else 0
termination_by (n - i).toNat
decreasing_by omega

/-- Pure count of the steps the bubble-sort producer yields on `arr`. -/
def bubbleYieldCount (arr : List Int) : Nat :=
  bubbleCountGo arr (arr.length : Int) 0

/-- Closed recurrence for the number of steps the merge-sort producer yields
on an array of length `L`. -/
def msc (L : Nat) : Nat :=
  if L ≤ 1 then 1
  else 1 + msc ((L - 1) / 2 + 1) + msc (L - ((L - 1) / 2 + 1)) + 2 * L
termination_by L
decreasing_by all_goals omega

/-- The selection phase of `merge()` (its three while loops composed), used to
state the loop invariants; `merge` is definitionally this phase followed by
the write-back loop. -/
def mergePhaseA (a : List Int) (middle j left right : Int) (sorted : List Int) :
    List StepState × List Int :=
  let L1 := mergeLoop1 a middle j left right sorted
  let L2 := mergeLoop2 a middle L1.2.2.1 L1.2.1
  let L3 := mergeLoop3 a middle j L1.2.2.2 L2.2
  (L1.1 ++ L2.1 ++ L3.1, L3.2)

/-! ## Theorems -/

theorem advanceStep_done (d : Driver) (h : d.sortingState.done = true) :
    advanceStep d = d := by
  simp [advanceStep, h]

theorem advanceStep_iterate_done (d : Driver) (h : d.sortingState.done = true) (k : Nat) :
    advanceStep^[k] d = d := by
  induction k with
  | zero => rfl
  | succ k ih => rw [Function.iterate_succ_apply, advanceStep_done d h, ih]

/-- C5: once the producer has completed, every further `advanceStep` leaves
the current `result` and `colors` (indeed the whole driver state) unchanged;
the operation is total, so it cannot throw. -/
theorem advanceStep_idempotent_after_done (d : Driver) (k : Nat)
    (h : d.sortingState.done = true) :
    (advanceStep^[k] d).sortingState.value.result = d.sortingState.value.result ∧
    (advanceStep^[k] d).sortingState.value.colors = d.sortingState.value.colors ∧
    advanceStep^[k] d = d := by
  rw [advanceStep_iterate_done d h k]
  exact ⟨rfl, rfl, rfl⟩

/-- Witness for C5 at a concrete completed driver. -/
theorem advanceStep_idempotent_after_done_witness :
    (initDriver (bubbleSort [])).sortingState.done = true ∧
    advanceStep^[3] (initDriver (bubbleSort [])) = initDriver (bubbleSort []) :=
  ⟨by simp [initDriver, genNext, bubbleSort, bubbleOuter],
   (advanceStep_idempotent_after_done (initDriver (bubbleSort [])) 3
     (by simp [initDriver, genNext, bubbleSort, bubbleOuter])).2.2⟩

theorem makeRandomArrayGo_spec (rand : Int → Int) (len i : Int) (acc : List Int) :
    (makeRandomArrayGo rand len i acc).length = acc.length + (len - i).toNat ∧
    (len ≤ i → makeRandomArrayGo rand len i acc = acc) := by
  rw [makeRandomArrayGo]
  split
  next h =>
    have ih := makeRandomArrayGo_spec rand len (i + 1) (acc ++ [rand i])
    exact ⟨by rw [ih.1]; simp; omega, fun hle => absurd hle (by omega)⟩
  next h =>
    exact ⟨by omega, fun _ => rfl⟩
termination_by (len - i).toNat
decreasing_by omega

/-- C6 counterexample: `makeRandomArray` with a non-positive configured length
returns normally (with the empty array); no rejection and no
`InvalidArrayLength` condition exists in the code. -/
theorem makeRandomArray_nonpositive_counterexample :
    makeRandomArray (fun _ => 0) 0 = [] ∧ makeRandomArray (fun _ => 7) (-3) = [] := by
  constructor <;> simp [makeRandomArray, makeRandomArrayGo]

/-- C6 amended: for every configured length ≤ 0, `makeRandomArray` returns the
empty array (the loop body never runs) rather than rejecting; for every
length, the produced array has `len.toNat` elements, so generation produces a
non-empty array exactly for positive lengths. -/
theorem makeRandomArray_spec (rand : Int → Int) (len : Int) :
    (len ≤ 0 → makeRandomArray rand len = []) ∧
    (makeRandomArray rand len).length = len.toNat := by
  refine ⟨fun h => (makeRandomArrayGo_spec rand len 0 []).2 (by omega), ?_⟩
  rw [makeRandomArray, (makeRandomArrayGo_spec rand len 0 []).1]
  simp

/-- Witness for the amended C6 at concrete lengths. -/
theorem makeRandomArray_spec_witness :
    ((-2 : Int) ≤ 0 ∧ makeRandomArray (fun _ => 5) (-2) = []) ∧
    (makeRandomArray (fun _ => 5) 4).length = (4 : Int).toNat :=
  ⟨⟨by decide, (makeRandomArray_spec (fun _ => 5) (-2)).1 (by decide)⟩,
   (makeRandomArray_spec (fun _ => 5) 4).2⟩

/-- C7 (the selection operation itself is modelled from the spec, the
registry from the source): an unknown key fails with `UnknownAlgorithm` and
produces no new driver state, so the current producer and step are unchanged;
a registered key succeeds, discards the in-flight producer and stops
autoplay. -/
theorem selectAlgorithm_spec (d : DriverState) (key : String) :
    (key ∉ algorithmKeys → selectAlgorithm d key = .error .UnknownAlgorithm) ∧
    (key ∈ algorithmKeys → ∃ d', selectAlgorithm d key = .ok d' ∧
      d'.currentProducer = none ∧ d'.playbackMode = .stopped ∧
      d'.selectedAlgorithmKey = key ∧ d'.currentStep = d.currentStep ∧
      d'.isDone = d.isDone) := by
  constructor
  · intro h; simp [selectAlgorithm, h]
  · intro h
    refine ⟨⟨key, none, d.currentStep, d.isDone, .stopped⟩, ?_, rfl, rfl, rfl, rfl, rfl⟩
    simp [selectAlgorithm, h]

/-- Witness for C7: `"heapSort"` is rejected, `"mergeSort"` is accepted. -/
theorem selectAlgorithm_spec_witness :
    ("heapSort" ∉ algorithmKeys ∧
      selectAlgorithm ⟨"mergeSort", none, none, false, .stopped⟩ "heapSort" =
        .error .UnknownAlgorithm) ∧
    ("mergeSort" ∈ algorithmKeys ∧ ∃ d',
      selectAlgorithm ⟨"mergeSort", none, none, false, .stopped⟩ "mergeSort" = .ok d' ∧
      d'.currentProducer = none ∧ d'.playbackMode = .stopped ∧
      d'.selectedAlgorithmKey = "mergeSort" ∧
      d'.currentStep = (⟨"mergeSort", none, none, false, .stopped⟩ : DriverState).currentStep ∧
      d'.isDone = (⟨"mergeSort", none, none, false, .stopped⟩ : DriverState).isDone) :=
  ⟨⟨by decide, (selectAlgorithm_spec _ "heapSort").1 (by decide)⟩,
   ⟨by decide, (selectAlgorithm_spec _ "mergeSort").2 (by decide)⟩⟩

/-- C2 counterexample: on the single-element array `[5]` the merge-sort
producer yields one intermediate step (the split-boundary step is yielded
before the `j <= i` base-case test), not zero. -/
theorem mergeSort_singleton_counterexample :
    (mergeSort [5]).1.length = 1 ∧ (mergeSort [5]).1 ≠ [] := by
  constructor <;>
  simp [mergeSort, mergeSortFrom, record3, record2, record1, recordSet, Int.fdiv]

/-- C2 amended: on inputs of length 0 or 1 both producers immediately return
the trivial fully-sorted `{ result: arr }`; `bubbleSort` yields no
intermediate step, while `mergeSort` yields exactly one (its split-boundary
step for the trivial range) before returning. -/
theorem short_input_runs (arr : List Int) (h : arr.length ≤ 1) :
    (bubbleSort arr).1 = [] ∧ (bubbleSort arr).2 = ⟨arr, []⟩ ∧
    (mergeSort arr).1.length = 1 ∧ (mergeSort arr).2 = ⟨arr, []⟩ := by
  match arr, h with
  | [], _ =>
    refine ⟨?_, ?_, ?_, ?_⟩ <;>
    simp [bubbleSort, bubbleOuter, bubbleInner, mergeSort, mergeSortFrom, Int.fdiv]
  | [x], _ =>
    refine ⟨?_, ?_, ?_, ?_⟩ <;>
    simp [bubbleSort, bubbleOuter, bubbleInner, mergeSort, mergeSortFrom, Int.fdiv]

/-- Witness for the amended C2 on the concrete input `[7]`. -/
theorem short_input_runs_witness :
    ([(7 : Int)].length ≤ 1) ∧
    ((bubbleSort [7]).1 = [] ∧ (bubbleSort [7]).2 = ⟨[7], []⟩ ∧
     (mergeSort [7]).1.length = 1 ∧ (mergeSort [7]).2 = ⟨[7], []⟩) :=
  ⟨by decide, short_input_runs [7] (by decide)⟩

/-- C4: each inner-loop iteration of `bubbleSort` yields exactly the steps of
`bubbleBody` — two on a swap (pre- and post-swap), one otherwise — followed by
the steps of the later iterations; on `[3,1,2]` the run opens with a step
annotating indices 0 and 1 distinctly, swaps to `[1,3,2]`, and ends fully
sorted. -/
theorem bubble_yield_granularity :
    (∀ (a : List Int) (j : Int),
      (bubbleBody a j).1.length = if getI a j > getI a (j + 1) then 2 else 1) ∧
    (∀ (a : List Int) (m j : Int), j < m →
      (bubbleInner a m j).1 =
        (bubbleBody a j).1 ++ (bubbleInner (bubbleBody a j).2 m (j + 1)).1) ∧
    (bubbleSort [3, 1, 2]).1 =
      [⟨[3, 1, 2], [(0, "yellow"), (1, "green")]⟩,
       ⟨[1, 3, 2], [(0, "green"), (1, "yellow")]⟩,
       ⟨[1, 3, 2], [(1, "yellow"), (2, "green")]⟩,
       ⟨[1, 2, 3], [(1, "green"), (2, "yellow")]⟩,
       ⟨[1, 2, 3], [(0, "yellow"), (1, "yellow")]⟩] ∧
    (bubbleSort [3, 1, 2]).2 = ⟨[1, 2, 3], []⟩ := by
  refine ⟨?_, ?_, ?_, ?_⟩
  · intro a j
    by_cases h : getI a j > getI a (j + 1) <;> simp [bubbleBody, h]
  · intro a m j h
    rw [bubbleInner]
    simp [dif_pos h]
  · simp [bubbleSort, bubbleOuter, bubbleInner, bubbleBody, getI, setI,
      record1, record2, record3, recordSet]
  · simp [bubbleSort, bubbleOuter, bubbleInner, bubbleBody, getI, setI,
      record1, record2, record3, recordSet]

/-- Witness for C4 instantiating the per-iteration clause concretely. -/
theorem bubble_yield_granularity_witness :
    ((0 : Int) < 1) ∧
    (bubbleInner [2, 1] 1 0).1 =
      (bubbleBody [2, 1] 0).1 ++ (bubbleInner (bubbleBody [2, 1] 0).2 1 1).1 :=
  ⟨by decide, bubble_yield_granularity.2.1 [2, 1] 1 0 (by decide)⟩

/-! ### Index and slice lemmas -/

theorem getI_neg (a : List Int) (k : Int) (h : k < 0) : getI a k = 0 :=
  if_neg (by omega)

theorem getI_nonneg_eq (a : List Int) (k : Int) (h : 0 ≤ k) :
    getI a k = a.getD k.toNat 0 :=
  if_pos h

theorem getI_append_right (p r : List Int) (k : Int) (h : 0 ≤ k) :
    getI (p ++ r) ((p.length : Int) + k) = getI r k := by
  rw [getI_nonneg_eq _ _ (by omega), getI_nonneg_eq _ _ h,
    List.getD_append_right _ _ _ _ (by omega)]
  congr 1
  omega

theorem getI_append_left (p r : List Int) (k : Int) (h0 : 0 ≤ k)
    (h : k < (p.length : Int)) : getI (p ++ r) k = getI p k := by
  rw [getI_nonneg_eq _ _ h0, getI_nonneg_eq _ _ h0,
    List.getD_append _ _ _ _ (by omega)]

theorem getI_cons_zero (z : Int) (t : List Int) : getI (z :: t) 0 = z := rfl

theorem getI_append_cons (p : List Int) (z : Int) (t : List Int) :
    getI (p ++ z :: t) (p.length : Int) = z := by
  have h := getI_append_right p (z :: t) 0 le_rfl
  simpa using h

theorem setI_inrange (a : List Int) (k v : Int) (h0 : 0 ≤ k)
    (hk : k.toNat < a.length) : setI a k v = a.set k.toNat v := by
  rw [setI, if_pos h0, if_pos hk]

theorem length_setI (a : List Int) (k v : Int) (h0 : 0 ≤ k)
    (hk : k.toNat < a.length) : (setI a k v).length = a.length := by
  rw [setI_inrange a k v h0 hk, List.length_set]

theorem setI_append_cons (p : List Int) (z : Int) (t : List Int) (v : Int) :
    setI (p ++ z :: t) (p.length : Int) v = p ++ v :: t := by
  rw [setI_inrange _ _ _ (by omega) (by simp)]
  simp

theorem getI_setI_self (a : List Int) (k v : Int) (h0 : 0 ≤ k)
    (hk : k.toNat < a.length) : getI (setI a k v) k = v := by
  rw [setI_inrange a k v h0 hk, getI_nonneg_eq _ _ h0]
  simp [List.getD_eq_getElem?_getD, List.getElem?_set_self hk]

theorem getI_setI_ne (a : List Int) (k v n : Int) (h0 : 0 ≤ k)
    (hk : k.toNat < a.length) (hne : n ≠ k) : getI (setI a k v) n = getI a n := by
  rw [setI_inrange a k v h0 hk]
  by_cases hn : 0 ≤ n
  · rw [getI_nonneg_eq _ _ hn, getI_nonneg_eq _ _ hn]
    simp [List.getD_eq_getElem?_getD, List.getElem?_set_ne (by omega : k.toNat ≠ n.toNat)]
  · rw [getI_neg _ _ (by omega), getI_neg _ _ (by omega)]

theorem sliceRange_nil (a : List Int) (l r : Int) (h : r < l) :
    sliceRange a l r = [] := by
  rw [sliceRange, dif_neg (by omega)]

theorem sliceRange_cons (a : List Int) (l r : Int) (h : l ≤ r) :
    sliceRange a l r = getI a l :: sliceRange a (l + 1) r := by
  rw [sliceRange, dif_pos h]

theorem sliceRange_length (a : List Int) (l r : Int) :
    (sliceRange a l r).length = (r + 1 - l).toNat := by
  by_cases h : l ≤ r
  · rw [sliceRange_cons a l r h, List.length_cons, sliceRange_length a (l + 1) r]
    omega
  · rw [sliceRange_nil a l r (by omega)]
    simp
    omega
termination_by (r + 1 - l).toNat
decreasing_by omega

theorem sliceRange_congr (a b : List Int) (l r : Int)
    (h : ∀ k, l ≤ k → k ≤ r → getI a k = getI b k) :
    sliceRange a l r = sliceRange b l r := by
  by_cases hlr : l ≤ r
  · rw [sliceRange_cons a l r hlr, sliceRange_cons b l r hlr,
      h l le_rfl hlr, sliceRange_congr a b (l + 1) r (fun k h1 h2 => h k (by omega) h2)]
  · rw [sliceRange_nil a l r (by omega), sliceRange_nil b l r (by omega)]
termination_by (r + 1 - l).toNat
decreasing_by omega

theorem sliceRange_split (a : List Int) (l m r : Int) (h1 : l ≤ m + 1) (h2 : m ≤ r) :
    sliceRange a l r = sliceRange a l m ++ sliceRange a (m + 1) r := by
  by_cases hlm : l ≤ m
  · rw [sliceRange_cons a l r (by omega), sliceRange_cons a l m hlm,
      sliceRange_split a (l + 1) m r (by omega) h2, List.cons_append]
  · have hlm1 : l = m + 1 := by omega
    rw [sliceRange_nil a l m (by omega), hlm1, List.nil_append]
termination_by (m + 1 - l).toNat
decreasing_by omega

theorem sliceRange_shift (x : Int) (t : List Int) (l r : Int) (h0 : 0 ≤ l) :
    sliceRange (x :: t) (l + 1) (r + 1) = sliceRange t l r := by
  by_cases h : l ≤ r
  · rw [sliceRange_cons _ _ _ (by omega), sliceRange_cons t l r h,
      sliceRange_shift x t (l + 1) r (by omega)]
    congr 1
    rw [getI_nonneg_eq _ _ (by omega), getI_nonneg_eq _ _ h0]
    have : (l + 1).toNat = l.toNat + 1 := by omega
    rw [this, List.getD_cons_succ]
  · rw [sliceRange_nil _ _ _ (by omega), sliceRange_nil _ _ _ (by omega)]
termination_by (r + 1 - l).toNat
decreasing_by omega

theorem sliceRange_full (a : List Int) :
    sliceRange a 0 ((a.length : Int) - 1) = a := by
  induction a with
  | nil => exact sliceRange_nil _ _ _ (by simp)
  | cons x t ih =>
    rw [sliceRange_cons _ _ _ (by simp), getI_cons_zero]
    congr 1
    have h : ((x :: t).length : Int) - 1 = ((t.length : Int) - 1) + 1 := by simp
    rw [h]
    have h0 : (0 : Int) + 1 = 0 + 1 := rfl
    rw [show (0 : Int) + 1 = 0 + 1 from rfl, sliceRange_shift x t 0 ((t.length : Int) - 1) le_rfl]
    exact ih

theorem sliceRange_of_pointwise (S : List Int) (b : List Int) (l : Int) (h0 : 0 ≤ l)
    (h : ∀ t : Nat, t < S.length → getI b (l + (t : Int)) = S.getD t 0) :
    sliceRange b l (l + (S.length : Int) - 1) = S := by
  induction S generalizing l with
  | nil => exact sliceRange_nil _ _ _ (by simp only [List.length_nil, Nat.cast_zero]; omega)
  | cons v vs ih =>
    rw [sliceRange_cons _ _ _ (by simp only [List.length_cons, Nat.cast_add, Nat.cast_one]; omega)]
    congr 1
    · have := h 0 (by simp)
      simpa using this
    · have h2 : l + ((v :: vs).length : Int) - 1 = (l + 1) + (vs.length : Int) - 1 := by
        simp only [List.length_cons, Nat.cast_add, Nat.cast_one]
        omega
      rw [h2]
      exact ih (l + 1) (by omega) (fun t ht => by
        have := h (t + 1) (by simp only [List.length_cons]; omega)
        rw [show l + 1 + (t : Int) = l + ((t : Int) + 1) by omega]
        simpa using this)

/-! ### Merge loop invariants -/

theorem merge_eq_phaseA (a : List Int) (i middle j : Int) :
    merge a i middle j =
      ((mergePhaseA a middle j i (middle + 1) []).1 ++
        (writeBackGo a i (mergePhaseA a middle j i (middle + 1) []).2).1,
       ⟨(writeBackGo a i (mergePhaseA a middle j i (middle + 1) []).2).2, []⟩) := by
  rfl

theorem mergeLoop2_spec (a : List Int) (middle left : Int) (sorted : List Int) :
    (mergeLoop2 a middle left sorted).2 = sorted ++ sliceRange a left middle ∧
    (mergeLoop2 a middle left sorted).1.length = (sliceRange a left middle).length ∧
    ∀ s ∈ (mergeLoop2 a middle left sorted).1, s.result = a := by
  rw [mergeLoop2]
  split
  next h =>
    have ih := mergeLoop2_spec a middle (left + 1) (sorted ++ [getI a left])
    simp only [push]
    refine ⟨?_, ?_, ?_⟩
    · rw [ih.1, sliceRange_cons a left middle h]
      simp
    · rw [List.length_cons, ih.2.1, sliceRange_cons a left middle h, List.length_cons]
    · intro s hs
      rcases List.mem_cons.1 hs with h1 | h1
      · rw [h1]
      · exact ih.2.2 s h1
  next h =>
    simp [sliceRange_nil a left middle (by omega)]
termination_by (middle + 1 - left).toNat
decreasing_by omega

theorem mergeLoop3_spec (a : List Int) (middle j right : Int) (sorted : List Int) :
    (mergeLoop3 a middle j right sorted).2 = sorted ++ sliceRange a right j ∧
    (mergeLoop3 a middle j right sorted).1.length = (sliceRange a right j).length ∧
    ∀ s ∈ (mergeLoop3 a middle j right sorted).1, s.result = a := by
  rw [mergeLoop3]
  split
  next h =>
    have ih := mergeLoop3_spec a middle j (right + 1) (sorted ++ [getI a right])
    simp only [push]
    refine ⟨?_, ?_, ?_⟩
    · rw [ih.1, sliceRange_cons a right j h]
      simp
    · rw [List.length_cons, ih.2.1, sliceRange_cons a right j h, List.length_cons]
    · intro s hs
      rcases List.mem_cons.1 hs with h1 | h1
      · rw [h1]
      · exact ih.2.2 s h1
  next h =>
    simp [sliceRange_nil a right j (by omega)]
termination_by (j + 1 - right).toNat
decreasing_by omega

theorem mergePhaseA_spec (a : List Int) (middle j left right : Int) (sorted : List Int) :
    (mergePhaseA a middle j left right sorted).2 =
      sorted ++ (sliceRange a left middle).merge (sliceRange a right j)
        (fun x y => decide (x ≤ y)) ∧
    (mergePhaseA a middle j left right sorted).1.length =
      (sliceRange a left middle).length + (sliceRange a right j).length ∧
    ∀ s ∈ (mergePhaseA a middle j left right sorted).1, s.result = a := by
  rw [mergePhaseA, mergeLoop1]
  split
  next hg =>
    split
    next hle =>
      have ih := mergePhaseA_spec a middle j (left + 1) right (sorted ++ [getI a left])
      rw [mergePhaseA] at ih
      simp only [push] at ih ⊢
      refine ⟨?_, ?_, ?_⟩
      · rw [ih.1, sliceRange_cons a left middle hg.1, sliceRange_cons a right j hg.2,
          List.cons_merge_cons]
        rw [if_pos (by simpa using hle)]
        rw [← sliceRange_cons a right j hg.2]
        simp
      · have hl := ih.2.1
        simp only [List.length_append, List.length_cons, sliceRange_length] at hl ⊢
        omega
      · intro s hs
        have hmem := ih.2.2
        simp only [List.cons_append, List.mem_cons, List.mem_append] at hs hmem
        rcases hs with h1 | h1
        · rw [h1]
        · exact hmem s h1
    next hle =>
      have ih := mergePhaseA_spec a middle j left (right + 1) (sorted ++ [getI a right])
      rw [mergePhaseA] at ih
      simp only [push] at ih ⊢
      refine ⟨?_, ?_, ?_⟩
      · rw [ih.1, sliceRange_cons a left middle hg.1, sliceRange_cons a right j hg.2,
          List.cons_merge_cons]
        rw [if_neg (by simpa using hle)]
        rw [← sliceRange_cons a left middle hg.1]
        simp
      · have hl := ih.2.1
        simp only [List.length_append, List.length_cons, sliceRange_length] at hl ⊢
        omega
      · intro s hs
        have hmem := ih.2.2
        simp only [List.cons_append, List.mem_cons, List.mem_append] at hs hmem
        rcases hs with h1 | h1
        · rw [h1]
        · exact hmem s h1
  next hg =>
    by_cases hlm : left ≤ middle
    · have hrj : j < right := by omega
      have l2 := mergeLoop2_spec a middle left sorted
      have l3 := mergeLoop3_spec a middle j right (mergeLoop2 a middle left sorted).2
      refine ⟨?_, ?_, ?_⟩
      · rw [l3.1, l2.1, sliceRange_nil a right j (by omega), List.merge_right]
        simp
      · rw [List.length_append, List.length_append, l2.2.1, l3.2.1,
          sliceRange_nil a right j (by omega)]
        simp
      · intro s hs
        rcases List.mem_append.1 hs with h1 | h1
        · rcases List.mem_append.1 h1 with h2 | h2
          · simp at h2
          · exact l2.2.2 s h2
        · exact l3.2.2 s h1
    · have l2 := mergeLoop2_spec a middle left sorted
      have hl2 : mergeLoop2 a middle left sorted = ([], sorted) := by
        rw [mergeLoop2, dif_neg hlm]
      have l3 := mergeLoop3_spec a middle j right sorted
      refine ⟨?_, ?_, ?_⟩
      · rw [hl2]
        rw [l3.1, sliceRange_nil a left middle (by omega), List.nil_merge]
      · rw [hl2]
        rw [List.length_append, List.length_append, l3.2.1,
          sliceRange_nil a left middle (by omega)]
        simp
      · intro s hs
        rw [hl2] at hs
        rcases List.mem_append.1 hs with h1 | h1
        · rcases List.mem_append.1 h1 with h2 | h2
          · simp at h2
          · simp at h2
        · exact l3.2.2 s h1
termination_by ((middle + 1 - left) + (j + 1 - right)).toNat
decreasing_by all_goals omega

theorem writeBackGo_spec (rest : List Int) (a : List Int) (pos : Int) (h0 : 0 ≤ pos)
    (hb : pos.toNat + rest.length ≤ a.length) :
    (writeBackGo a pos rest).2.length = a.length ∧
    (∀ k : Int, (k < pos ∨ pos + (rest.length : Int) ≤ k) →
      getI (writeBackGo a pos rest).2 k = getI a k) ∧
    (∀ t : Nat, t < rest.length →
      getI (writeBackGo a pos rest).2 (pos + (t : Int)) = rest.getD t 0) ∧
    (writeBackGo a pos rest).1.length = rest.length ∧
    ∀ s ∈ (writeBackGo a pos rest).1, s.result.length = a.length := by
  induction rest generalizing a pos with
  | nil => simp [writeBackGo]
  | cons v vs ih =>
    have hpos : pos.toNat < a.length := by
      simp only [List.length_cons] at hb
      omega
    have hlen : (setI a pos v).length = a.length := length_setI a pos v h0 hpos
    have ih2 := ih (setI a pos v) (pos + 1) (by omega)
      (by rw [hlen]; simp only [List.length_cons] at hb; omega)
    simp only [writeBackGo]
    refine ⟨?_, ?_, ?_, ?_, ?_⟩
    · rw [ih2.1, hlen]
    · intro k hk
      simp only [List.length_cons] at hk
      rw [ih2.2.1 k (by push_cast at hk ⊢; omega)]
      exact getI_setI_ne a pos v k h0 hpos (by omega)
    · intro t ht
      cases t with
      | zero =>
        have heq := ih2.2.1 pos (Or.inl (by omega))
        rw [show pos + ((0 : Nat) : Int) = pos by simp, heq,
          getI_setI_self a pos v h0 hpos, List.getD_cons_zero]
      | succ t2 =>
        have heq := ih2.2.2.1 t2 (by simp only [List.length_cons] at ht; omega)
        rw [show pos + ((t2 + 1 : Nat) : Int) = pos + 1 + (t2 : Int) by push_cast; omega, heq,
          List.getD_cons_succ]
    · simp only [List.length_cons, ih2.2.2.2.1]
    · intro s hs
      rcases List.mem_cons.1 hs with h1 | h1
      · rw [h1]
      · rw [ih2.2.2.2.2 s h1, hlen]

theorem merge_spec (a : List Int) (i middle j : Int) (h0 : 0 ≤ i) (him : i ≤ middle)
    (hmj : middle < j) (hjl : j < (a.length : Int)) :
    (merge a i middle j).2.colors = [] ∧
    (merge a i middle j).2.result.length = a.length ∧
    (∀ k : Int, (k < i ∨ j < k) → getI (merge a i middle j).2.result k = getI a k) ∧
    sliceRange (merge a i middle j).2.result i j =
      (sliceRange a i middle).merge (sliceRange a (middle + 1) j)
        (fun x y => decide (x ≤ y)) ∧
    (merge a i middle j).1.length = 2 * (j + 1 - i).toNat ∧
    (∀ s ∈ (merge a i middle j).1, s.result.length = a.length) ∧
    (merge a i middle j).1 =
      (mergePhaseA a middle j i (middle + 1) []).1 ++
        (writeBackGo a i (mergePhaseA a middle j i (middle + 1) []).2).1 ∧
    (mergePhaseA a middle j i (middle + 1) []).1.length = (j + 1 - i).toNat ∧
    (writeBackGo a i (mergePhaseA a middle j i (middle + 1) []).2).1.length =
      (j + 1 - i).toNat ∧
    (∀ s ∈ (mergePhaseA a middle j i (middle + 1) []).1, s.result = a) := by
  have hA := mergePhaseA_spec a middle j i (middle + 1) []
  have hSlen : (mergePhaseA a middle j i (middle + 1) []).2.length = (j + 1 - i).toNat := by
    rw [hA.1]
    simp only [List.nil_append, List.length_merge, sliceRange_length]
    omega
  have hAlen : (mergePhaseA a middle j i (middle + 1) []).1.length = (j + 1 - i).toNat := by
    rw [hA.2.1]
    simp only [sliceRange_length]
    omega
  have hW := writeBackGo_spec (mergePhaseA a middle j i (middle + 1) []).2 a i h0
    (by rw [hSlen]; omega)
  rw [merge_eq_phaseA]
  refine ⟨rfl, hW.1, ?_, ?_, ?_, ?_, rfl, hAlen, by rw [hW.2.2.2.1, hSlen], hA.2.2⟩
  · intro k hk
    exact hW.2.1 k (by rw [hSlen]; omega)
  · have hp := sliceRange_of_pointwise (mergePhaseA a middle j i (middle + 1) []).2
      (writeBackGo a i (mergePhaseA a middle j i (middle + 1) []).2).2 i h0 hW.2.2.1
    rw [show i + ((mergePhaseA a middle j i (middle + 1) []).2.length : Int) - 1 = j by
      rw [hSlen]; omega] at hp
    rw [hp, hA.1, List.nil_append]
  · simp only [List.length_append, hAlen, hW.2.2.2.1, hSlen]
    omega
  · intro s hs
    rcases List.mem_append.1 hs with h1 | h1
    · rw [hA.2.2 s h1]
    · exact hW.2.2.2.2 s h1

theorem mergeSortFrom_base (a : List Int) (i j : Int) (h : j ≤ i) :
    mergeSortFrom a i j =
      ([⟨a, record3 i "yellow" ((j - i).fdiv 2 + i) "blue" j "green"⟩], ⟨a, []⟩) := by
  rw [mergeSortFrom]
  simp only [dif_pos h]

theorem mergeSortFrom_rec (a : List Int) (i j : Int) (h : ¬ j ≤ i) :
    mergeSortFrom a i j =
      (⟨a, record3 i "yellow" ((j - i).fdiv 2 + i) "blue" j "green"⟩ ::
        ((mergeSortFrom a i ((j - i).fdiv 2 + i)).1 ++
          (mergeSortFrom (mergeSortFrom a i ((j - i).fdiv 2 + i)).2.result
            ((j - i).fdiv 2 + i + 1) j).1 ++
          (merge (mergeSortFrom (mergeSortFrom a i ((j - i).fdiv 2 + i)).2.result
            ((j - i).fdiv 2 + i + 1) j).2.result i ((j - i).fdiv 2 + i) j).1),
       ⟨(merge (mergeSortFrom (mergeSortFrom a i ((j - i).fdiv 2 + i)).2.result
            ((j - i).fdiv 2 + i + 1) j).2.result i ((j - i).fdiv 2 + i) j).2.result, []⟩) := by
  rw [mergeSortFrom]
  simp only [dif_neg h]

theorem mergeSortFrom_spec (a : List Int) (i j : Int) (h0 : 0 ≤ i)
    (hjl : j < (a.length : Int)) :
    (mergeSortFrom a i j).2.colors = [] ∧
    (mergeSortFrom a i j).2.result.length = a.length ∧
    (∀ k : Int, (k < i ∨ j < k) →
      getI (mergeSortFrom a i j).2.result k = getI a k) ∧
    (sliceRange (mergeSortFrom a i j).2.result i j).Perm (sliceRange a i j) ∧
    List.Sorted (· ≤ ·) (sliceRange (mergeSortFrom a i j).2.result i j) ∧
    (mergeSortFrom a i j).1.length = msc (j + 1 - i).toNat ∧
    (∀ s ∈ (mergeSortFrom a i j).1, s.result.length = a.length) := by
  by_cases hle : j ≤ i
  · rw [mergeSortFrom_base a i j hle]
    refine ⟨rfl, rfl, fun k hk => rfl, List.Perm.refl _, ?_, ?_, ?_⟩
    · by_cases hij : i ≤ j
      · have hij2 : i = j := le_antisymm hij hle
        rw [← hij2, sliceRange_cons a i i le_rfl, sliceRange_nil a (i + 1) i (by omega)]
        exact List.sorted_singleton _
      · rw [sliceRange_nil a i j (by omega)]
        exact List.sorted_nil
    · have h1 : msc (j + 1 - i).toNat = 1 := by rw [msc, if_pos (by omega)]
      rw [h1, List.length_singleton]
    · intro s hs
      rw [List.mem_singleton.1 hs]
  · rw [mergeSortFrom_rec a i j hle]
    generalize hm : (j - i).fdiv 2 + i = m
    have hmi : i ≤ m := by
      rw [← hm, Int.fdiv_eq_ediv _ (by omega)]
      omega
    have hmj : m < j := by
      rw [← hm, Int.fdiv_eq_ediv _ (by omega)]
      omega
    have hcnt : (m + 1 - i).toNat = ((j + 1 - i).toNat - 1) / 2 + 1 := by
      rw [← hm, Int.fdiv_eq_ediv _ (by omega)]
      omega
    have hcnt2 : (j + 1 - (m + 1)).toNat =
        (j + 1 - i).toNat - (((j + 1 - i).toNat - 1) / 2 + 1) := by
      rw [← hm, Int.fdiv_eq_ediv _ (by omega)]
      omega
    obtain ⟨A1, A2, A3, A4, A5, A6, A7⟩ := mergeSortFrom_spec a i m h0 (by omega)
    obtain ⟨B1, B2, B3, B4, B5, B6, B7⟩ :=
      mergeSortFrom_spec (mergeSortFrom a i m).2.result (m + 1) j (by omega)
        (by rw [A2]; omega)
    obtain ⟨M1, M2, M3, M4, M5, M6, M7, M8, M9, M10⟩ :=
      merge_spec (mergeSortFrom (mergeSortFrom a i m).2.result (m + 1) j).2.result
        i m j h0 hmi hmj (by rw [B2, A2]; omega)
    have e2 : sliceRange
        (mergeSortFrom (mergeSortFrom a i m).2.result (m + 1) j).2.result i m =
        sliceRange (mergeSortFrom a i m).2.result i m :=
      sliceRange_congr _ _ _ _ (fun k h1 h2 => B3 k (Or.inl (by omega)))
    have e1 : sliceRange (mergeSortFrom a i m).2.result (m + 1) j =
        sliceRange a (m + 1) j :=
      sliceRange_congr _ _ _ _ (fun k h1 h2 => A3 k (Or.inr (by omega)))
    refine ⟨rfl, M2.trans (B2.trans A2), ?_, ?_, ?_, ?_, ?_⟩
    · intro k hk
      rw [M3 k hk]
      rcases hk with h | h
      · rw [B3 k (Or.inl (by omega)), A3 k (Or.inl h)]
      · rw [B3 k (Or.inr h), A3 k (Or.inr (by omega))]
    · show (sliceRange
          (merge (mergeSortFrom (mergeSortFrom a i m).2.result (m + 1) j).2.result
            i m j).2.result i j).Perm (sliceRange a i j)
      rw [M4, sliceRange_split a i m j (by omega) (by omega)]
      refine List.Perm.trans (List.merge_perm_append _) (List.Perm.append ?_ ?_)
      · rw [e2]
        exact A4
      · exact B4.trans (by rw [e1])
    · rw [M4]
      refine List.Sorted.merge ?_ B5
      rw [e2]
      exact A5
    · simp only [List.length_cons, List.length_append, A6, B6, M5]
      conv_rhs => rw [msc]
      rw [if_neg (by omega), hcnt, hcnt2]
      ring
    · intro s hs
      rcases List.mem_cons.1 hs with h | h
      · rw [h]
      · rcases List.mem_append.1 h with h2 | h2
        · rcases List.mem_append.1 h2 with h3 | h3
          · exact A7 s h3
          · rw [B7 s h3, A2]
        · rw [M6 s h2, B2, A2]
termination_by (j + 1 - i).toNat
decreasing_by all_goals omega

theorem mergeSort_spec (arr : List Int) :
    (mergeSort arr).2.colors = [] ∧
    (mergeSort arr).2.result.Perm arr ∧
    List.Sorted (· ≤ ·) (mergeSort arr).2.result ∧
    (mergeSort arr).1.length = msc arr.length ∧
    (mergeSort arr).2.result.length = arr.length ∧
    ∀ s ∈ (mergeSort arr).1, s.result.length = arr.length := by
  simp only [mergeSort]
  obtain ⟨h1, h2, h3, h4, h5, h6, h7⟩ :=
    mergeSortFrom_spec arr 0 ((arr.length : Int) - 1) le_rfl (by omega)
  have hfull : sliceRange (mergeSortFrom arr 0 ((arr.length : Int) - 1)).2.result 0
        ((arr.length : Int) - 1) =
      (mergeSortFrom arr 0 ((arr.length : Int) - 1)).2.result := by
    have := sliceRange_full (mergeSortFrom arr 0 ((arr.length : Int) - 1)).2.result
    rw [show ((mergeSortFrom arr 0 ((arr.length : Int) - 1)).2.result.length : Int) =
      (arr.length : Int) by rw [h2]] at this
    exact this
  have hfull2 : sliceRange arr 0 ((arr.length : Int) - 1) = arr := sliceRange_full arr
  refine ⟨h1, ?_, ?_, ?_, h2, h7⟩
  · have := h4
    rw [hfull, hfull2] at this
    exact this
  · have := h5
    rw [hfull] at this
    exact this
  · rw [h6]
    congr 1
    omega

/-! ### Bubble pass invariants -/

theorem bubbleF_nil : bubbleF [] = [] := by
  rw [bubbleF]
  simp

theorem bubbleF_singleton (x : Int) : bubbleF [x] = [x] := by
  rw [bubbleF]
  simp

theorem bubbleF_cons_cons (x y : Int) (t : List Int) :
    bubbleF (x :: y :: t) =
      if x > y then y :: bubbleF (x :: t) else x :: bubbleF (y :: t) := by
  rw [bubbleF]

theorem passCount_nil : passCount [] = 0 := by
  rw [passCount]
  simp

theorem passCount_singleton (x : Int) : passCount [x] = 0 := by
  rw [passCount]
  simp

theorem passCount_cons_cons (x y : Int) (t : List Int) :
    passCount (x :: y :: t) =
      if x > y then 2 + passCount (x :: t) else 1 + passCount (y :: t) := by
  rw [passCount]

theorem bubbleF_perm (q : List Int) : (bubbleF q).Perm q := by
  match q with
  | [] => rw [bubbleF_nil]
  | [x] => rw [bubbleF_singleton]
  | x :: y :: t =>
    rw [bubbleF_cons_cons]
    by_cases h : x > y
    · rw [if_pos h]
      exact ((bubbleF_perm (x :: t)).cons y).trans (List.Perm.swap x y t)
    · rw [if_neg h]
      exact (bubbleF_perm (y :: t)).cons x
termination_by q.length
decreasing_by all_goals simp

theorem bubbleF_length (q : List Int) : (bubbleF q).length = q.length :=
  (bubbleF_perm q).length_eq

theorem bubbleF_last (q : List Int) (h : q ≠ []) :
    ∃ q2 M, bubbleF q = q2 ++ [M] ∧ ∀ z ∈ q2, z ≤ M := by
  match q with
  | [x] => exact ⟨[], x, by rw [bubbleF_singleton]; rfl, by simp⟩
  | x :: y :: t =>
    by_cases hxy : x > y
    · obtain ⟨q2, M, hEq, hle⟩ := bubbleF_last (x :: t) (by simp)
      have hxM : x ≤ M := by
        have hx : x ∈ q2 ++ [M] := by
          rw [← hEq]
          exact (bubbleF_perm (x :: t)).symm.subset (List.mem_cons_self x t)
        rcases List.mem_append.1 hx with h1 | h1
        · exact hle x h1
        · rw [List.mem_singleton.1 h1]
      refine ⟨y :: q2, M, ?_, ?_⟩
      · rw [bubbleF_cons_cons, if_pos hxy, hEq, List.cons_append]
      · intro z hz
        rcases List.mem_cons.1 hz with h1 | h1
        · rw [h1]; omega
        · exact hle z h1
    · obtain ⟨q2, M, hEq, hle⟩ := bubbleF_last (y :: t) (by simp)
      have hyM : y ≤ M := by
        have hy : y ∈ q2 ++ [M] := by
          rw [← hEq]
          exact (bubbleF_perm (y :: t)).symm.subset (List.mem_cons_self y t)
        rcases List.mem_append.1 hy with h1 | h1
        · exact hle y h1
        · rw [List.mem_singleton.1 h1]
      refine ⟨x :: q2, M, ?_, ?_⟩
      · rw [bubbleF_cons_cons, if_neg hxy, hEq, List.cons_append]
      · intro z hz
        rcases List.mem_cons.1 hz with h1 | h1
        · rw [h1]; omega
        · exact hle z h1
termination_by q.length
decreasing_by all_goals simp

theorem bubbleBody_append (p : List Int) (x y : Int) (r : List Int) :
    bubbleBody (p ++ x :: y :: r) (p.length : Int) =
      if x > y then
        ([⟨p ++ x :: y :: r,
            record2 (p.length : Int) "yellow" ((p.length : Int) + 1) "green"⟩,
          ⟨p ++ y :: x :: r,
            record2 (p.length : Int) "green" ((p.length : Int) + 1) "yellow"⟩],
         p ++ y :: x :: r)
      else
        ([⟨p ++ x :: y :: r,
            record2 (p.length : Int) "yellow" ((p.length : Int) + 1) "yellow"⟩],
         p ++ x :: y :: r) := by
  have hg1 : getI (p ++ x :: y :: r) (p.length : Int) = x := getI_append_cons p x (y :: r)
  have hg2 : getI (p ++ x :: y :: r) ((p.length : Int) + 1) = y := by
    rw [show p ++ x :: y :: r = (p ++ [x]) ++ y :: r by simp,
      show (p.length : Int) + 1 = (((p ++ [x]).length : Int)) by simp]
    exact getI_append_cons _ y r
  have hs1 : setI (p ++ x :: y :: r) (p.length : Int) y = p ++ y :: y :: r :=
    setI_append_cons p x (y :: r) y
  have hs2 : setI (p ++ y :: y :: r) ((p.length : Int) + 1) x = p ++ y :: x :: r := by
    rw [show p ++ y :: y :: r = (p ++ [y]) ++ y :: r by simp,
      show (p.length : Int) + 1 = (((p ++ [y]).length : Int)) by simp,
      setI_append_cons (p ++ [y]) y r x]
    simp
  simp only [bubbleBody, hg1, hg2, hs1, hs2]

theorem bubbleInner_unfold_pos (a : List Int) (m j : Int) (h : j < m) :
    bubbleInner a m j =
      ((bubbleBody a j).1 ++ (bubbleInner (bubbleBody a j).2 m (j + 1)).1,
       (bubbleInner (bubbleBody a j).2 m (j + 1)).2) := by
  rw [bubbleInner]
  simp only [dif_pos h]

theorem bubbleInner_unfold_neg (a : List Int) (m j : Int) (h : ¬ j < m) :
    bubbleInner a m j = ([], a) := by
  rw [bubbleInner]
  simp only [dif_neg h]

theorem bubbleInner_pass (q p suffix : List Int) (m j : Int)
    (hm : m = (p.length : Int) + (q.length : Int) - 1) (hj : j = (p.length : Int)) :
    (bubbleInner (p ++ q ++ suffix) m j).2 = p ++ bubbleF q ++ suffix ∧
    (bubbleInner (p ++ q ++ suffix) m j).1.length = passCount q ∧
    ∀ s ∈ (bubbleInner (p ++ q ++ suffix) m j).1,
      s.result.length = p.length + q.length + suffix.length := by
  match q with
  | [] =>
    rw [bubbleInner_unfold_neg _ _ _
      (by rw [hm, hj]; simp only [List.length_nil, Nat.cast_zero]; omega)]
    rw [bubbleF_nil, passCount_nil]
    exact ⟨rfl, rfl, by simp⟩
  | [x] =>
    rw [bubbleInner_unfold_neg _ _ _
      (by rw [hm, hj]; simp only [List.length_singleton, Nat.cast_one]; omega)]
    rw [bubbleF_singleton, passCount_singleton]
    exact ⟨rfl, rfl, by simp⟩
  | x :: y :: t =>
    rw [bubbleInner_unfold_pos _ _ _
      (by rw [hm, hj]; simp only [List.length_cons]; push_cast; omega)]
    rw [hj, show p ++ (x :: y :: t) ++ suffix = p ++ x :: y :: (t ++ suffix) by simp]
    rw [bubbleBody_append p x y (t ++ suffix)]
    by_cases hxy : x > y
    · rw [if_pos hxy]
      have IH := bubbleInner_pass (x :: t) (p ++ [y]) suffix m ((p.length : Int) + 1)
        (by simp only [List.length_append, List.length_singleton, List.length_cons,
          List.length_nil] at hm ⊢; omega)
        (by simp)
      rw [show (p ++ [y]) ++ (x :: t) ++ suffix = p ++ y :: x :: (t ++ suffix) by simp] at IH
      rw [bubbleF_cons_cons, if_pos hxy, passCount_cons_cons, if_pos hxy]
      refine ⟨?_, ?_, ?_⟩
      · rw [IH.1]
        simp
      · simp only [List.length_append, List.length_cons, List.length_nil, List.length_singleton, IH.2.1]
      · intro s hs
        rcases List.mem_append.1 hs with h1 | h1
        · rcases List.mem_cons.1 h1 with h2 | h2
          · rw [h2]
            simp only [List.length_append, List.length_cons]
            omega
          · rw [List.mem_singleton.1 h2]
            simp only [List.length_append, List.length_cons]
            omega
        · rw [IH.2.2 s h1]
          simp only [List.length_append, List.length_singleton, List.length_cons,
            List.length_nil]
          omega
    · rw [if_neg hxy]
      have IH := bubbleInner_pass (y :: t) (p ++ [x]) suffix m ((p.length : Int) + 1)
        (by simp only [List.length_append, List.length_singleton, List.length_cons,
          List.length_nil] at hm ⊢; omega)
        (by simp)
      rw [show (p ++ [x]) ++ (y :: t) ++ suffix = p ++ x :: y :: (t ++ suffix) by simp] at IH
      rw [bubbleF_cons_cons, if_neg hxy, passCount_cons_cons, if_neg hxy]
      refine ⟨?_, ?_, ?_⟩
      · rw [IH.1]
        simp
      · simp only [List.length_append, List.length_cons, List.length_nil, List.length_singleton, IH.2.1]
      · intro s hs
        rcases List.mem_append.1 hs with h1 | h1
        · rw [List.mem_singleton.1 h1]
          simp only [List.length_append, List.length_cons]
          omega
        · rw [IH.2.2 s h1]
          simp only [List.length_append, List.length_singleton, List.length_cons,
            List.length_nil]
          omega
termination_by q.length
decreasing_by all_goals simp

theorem bubbleOuter_spec (a : List Int) (n i : Int) (hn : n = (a.length : Int))
    (h0 : 0 ≤ i)
    (hsort : List.Sorted (· ≤ ·) (a.drop (n - i).toNat))
    (hdom : ∀ x ∈ a.take (n - i).toNat, ∀ y ∈ a.drop (n - i).toNat, x ≤ y) :
    (bubbleOuter a n i).2.Perm a ∧
    List.Sorted (· ≤ ·) (bubbleOuter a n i).2 ∧
    (bubbleOuter a n i).1.length = bubbleCountGo a n i ∧
    (∀ s ∈ (bubbleOuter a n i).1, s.result.length = a.length) ∧
    (bubbleOuter a n i).2.length = a.length := by
  by_cases hcond : i < n
  case neg =>
    have hb : bubbleOuter a n i = ([], a) := by
      rw [bubbleOuter]
      simp only [dif_neg hcond]
    have hc : bubbleCountGo a n i = 0 := by
      rw [bubbleCountGo]
      simp only [dif_neg hcond]
    rw [hb, hc]
    rw [show (n - i).toNat = 0 by omega, List.drop_zero] at hsort
    exact ⟨List.Perm.refl a, hsort, rfl, by simp, rfl⟩
  case pos =>
    have hb : bubbleOuter a n i =
        ((bubbleInner a (n - i - 1) 0).1 ++
          (bubbleOuter (bubbleInner a (n - i - 1) 0).2 n (i + 1)).1,
         (bubbleOuter (bubbleInner a (n - i - 1) 0).2 n (i + 1)).2) := by
      rw [bubbleOuter]
      simp only [dif_pos hcond]
    have hcg : bubbleCountGo a n i =
        passCount (a.take (n - i).toNat) +
          bubbleCountGo (passF a (n - i).toNat) n (i + 1) := by
      rw [bubbleCountGo]
      simp only [dif_pos hcond]
    set L : Nat := (n - i).toNat with hL
    have hLlen : L ≤ a.length := by omega
    have htq : (a.take L).length = L := by
      rw [List.length_take]
      omega
    have hpass := bubbleInner_pass (a.take L) [] (a.drop L) (n - i - 1) 0
      (by simp only [List.length_nil, Nat.cast_zero, htq]; omega) (by simp)
    rw [show ([] : List Int) ++ a.take L ++ a.drop L = a by
      simp [List.take_append_drop]] at hpass
    simp only [List.nil_append, List.length_nil] at hpass
    set b1 : List Int := bubbleF (a.take L) ++ a.drop L with hb1
    have etad : a.take L ++ a.drop L = a := List.take_append_drop L a
    have hperm1 : b1.Perm a := by
      rw [hb1]
      conv_rhs => rw [← etad]
      exact (bubbleF_perm _).append_right _
    have hb1len : b1.length = a.length := hperm1.length_eq
    obtain ⟨q2, M, hsplit, hleM⟩ := bubbleF_last (a.take L)
      (by
        intro hq
        rw [hq] at htq
        simp only [List.length_nil] at htq
        omega)
    have hq2len : q2.length = L - 1 := by
      have hbl := bubbleF_length (a.take L)
      rw [hsplit, htq, List.length_append, List.length_singleton] at hbl
      omega
    have hMq : M ∈ a.take L := (bubbleF_perm _).subset
      (by rw [hsplit]; exact List.mem_append_right _ (List.mem_singleton.2 rfl))
    have hsub : ∀ z ∈ q2, z ∈ a.take L := fun z hz => (bubbleF_perm _).subset
      (by rw [hsplit]; exact List.mem_append_left _ hz)
    have hb1eq : b1 = q2 ++ (M :: a.drop L) := by
      rw [hb1, hsplit]
      simp
    have hdropL1 : b1.drop ((n - (i + 1)).toNat) = M :: a.drop L := by
      rw [show (n - (i + 1)).toNat = q2.length by omega, hb1eq, List.drop_left]
    have htake2 : b1.take ((n - (i + 1)).toNat) = q2 := by
      rw [show (n - (i + 1)).toNat = q2.length by omega, hb1eq, List.take_left]
    have hsort2 : List.Sorted (· ≤ ·) (b1.drop ((n - (i + 1)).toNat)) := by
      rw [hdropL1, List.sorted_cons]
      exact ⟨fun b hb => hdom M hMq b hb, hsort⟩
    have hdom2 : ∀ x ∈ b1.take ((n - (i + 1)).toNat),
        ∀ y ∈ b1.drop ((n - (i + 1)).toNat), x ≤ y := by
      rw [htake2, hdropL1]
      intro x hx y hy
      rcases List.mem_cons.1 hy with h1 | h1
      · rw [h1]
        exact hleM x hx
      · exact hdom x (hsub x hx) y h1
    have IH := bubbleOuter_spec b1 n (i + 1) (by rw [hb1len]; exact hn) (by omega)
      hsort2 hdom2
    have hpf : passF a L = b1 := by
      rw [passF, hb1]
    rw [hb, hcg, hpass.1, hpf]
    refine ⟨IH.1.trans hperm1, IH.2.1, ?_, ?_, IH.2.2.2.2.trans hb1len⟩
    · rw [List.length_append, hpass.2.1, IH.2.2.1]
    · intro s hs
      rcases List.mem_append.1 hs with h1 | h1
      · rw [hpass.2.2 s h1, List.length_take, List.length_drop]
        omega
      · rw [IH.2.2.2.1 s h1, hb1len]
termination_by (n - i).toNat
decreasing_by omega

theorem bubbleSort_spec (arr : List Int) :
    (bubbleSort arr).2.colors = [] ∧
    (bubbleSort arr).2.result.Perm arr ∧
    List.Sorted (· ≤ ·) (bubbleSort arr).2.result ∧
    (bubbleSort arr).1.length = bubbleYieldCount arr ∧
    (bubbleSort arr).2.result.length = arr.length ∧
    ∀ s ∈ (bubbleSort arr).1, s.result.length = arr.length := by
  simp only [bubbleSort, bubbleYieldCount]
  obtain ⟨h1, h2, h3, h4, h5⟩ := bubbleOuter_spec arr (arr.length : Int) 0 rfl le_rfl
    (by
      rw [show ((arr.length : Int) - 0).toNat = arr.length by omega, List.drop_length]
      exact List.sorted_nil)
    (by
      rw [show ((arr.length : Int) - 0).toNat = arr.length by omega, List.drop_length]
      intro x hx y hy
      simp at hy)
  exact ⟨trivial, h1, h2, h3, h5, h4⟩

theorem driver_run_done (p : List StepState) (fin : StepState) (v : StepState) :
    (advanceStep^[p.length + 1] ⟨p, fin, ⟨v, false⟩⟩).sortingState = ⟨fin, true⟩ := by
  induction p generalizing v with
  | nil =>
    simp [advanceStep, genNext]
  | cons s rest ih =>
    rw [List.length_cons, Function.iterate_succ_apply,
      show advanceStep ⟨s :: rest, fin, ⟨v, false⟩⟩ = ⟨rest, fin, ⟨s, false⟩⟩ by
        simp [advanceStep, genNext]]
    exact ih s

theorem driver_completes (run : List StepState × StepState) :
    (advanceStep^[run.1.length] (initDriver run)).sortingState = ⟨run.2, true⟩ := by
  obtain ⟨ys, fin⟩ := run
  cases ys with
  | nil => simp [initDriver, genNext]
  | cons s rest =>
    rw [show ((s :: rest, fin) : List StepState × StepState).1.length = rest.length + 1
        by simp,
      show initDriver (s :: rest, fin) = ⟨rest, fin, ⟨s, false⟩⟩ by
        simp [initDriver, genNext]]
    exact driver_run_done rest fin s

/-- C1: on every finite input, the returned (not yielded) final
value of each producer — delivered together with the done signal after the yields are
exhausted — is a non-decreasing permutation of the input with no colour
annotations. -/
theorem producers_sort_correctly (arr : List Int) :
    ((bubbleSort arr).2.result.Perm arr ∧
      List.Sorted (· ≤ ·) (bubbleSort arr).2.result ∧
      (bubbleSort arr).2.colors = [] ∧
      (advanceStep^[(bubbleSort arr).1.length] (initDriver (bubbleSort arr))).sortingState =
        ⟨(bubbleSort arr).2, true⟩) ∧
    ((mergeSort arr).2.result.Perm arr ∧
      List.Sorted (· ≤ ·) (mergeSort arr).2.result ∧
      (mergeSort arr).2.colors = [] ∧
      (advanceStep^[(mergeSort arr).1.length] (initDriver (mergeSort arr))).sortingState =
        ⟨(mergeSort arr).2, true⟩) := by
  obtain ⟨b1, b2, b3, _, _, _⟩ := bubbleSort_spec arr
  obtain ⟨m1, m2, m3, _, _, _⟩ := mergeSort_spec arr
  exact ⟨⟨b2, b3, b1, driver_completes (bubbleSort arr)⟩,
         ⟨m2, m3, m1, driver_completes (mergeSort arr)⟩⟩

/-- C8: every step of either producer, yielded or returned, carries a
`result` of the same length as the input array — no operation resizes it. -/
theorem result_length_invariant (arr : List Int) :
    (∀ s ∈ (bubbleSort arr).1, s.result.length = arr.length) ∧
    (bubbleSort arr).2.result.length = arr.length ∧
    (∀ s ∈ (mergeSort arr).1, s.result.length = arr.length) ∧
    (mergeSort arr).2.result.length = arr.length := by
  obtain ⟨_, _, _, _, b5, b6⟩ := bubbleSort_spec arr
  obtain ⟨_, _, _, _, m5, m6⟩ := mergeSort_spec arr
  exact ⟨b6, b5, m6, m5⟩

/-- Witness for C8 at a concrete yielded step of `bubbleSort [2,1]`. -/
theorem result_length_invariant_witness :
    (⟨[2, 1], [(0, "yellow"), (1, "green")]⟩ : StepState) ∈ (bubbleSort [2, 1]).1 ∧
    (⟨[2, 1], [(0, "yellow"), (1, "green")]⟩ : StepState).result.length =
      ([2, 1] : List Int).length :=
  ⟨by simp [bubbleSort, bubbleOuter, bubbleInner, bubbleBody, getI, setI,
      record1, record2, recordSet],
   (result_length_invariant [2, 1]).1 _
     (by simp [bubbleSort, bubbleOuter, bubbleInner, bubbleBody, getI, setI,
       record1, record2, recordSet])⟩

/-- C9: both producers terminate with a finite yield sequence whose count is
given by an explicit pure function of the input — `bubbleYieldCount` for
bubble sort and the recurrence `msc` (a function of the length alone) for
merge sort. -/
theorem producer_step_counts (arr : List Int) :
    (bubbleSort arr).1.length = bubbleYieldCount arr ∧
    (mergeSort arr).1.length = msc arr.length := by
  obtain ⟨_, _, _, b4, _, _⟩ := bubbleSort_spec arr
  obtain ⟨_, _, _, m4, _, _⟩ := mergeSort_spec arr
  exact ⟨b4, m4⟩

/-- C3: `yield*` delegation flattens into a single ordered step sequence: the
split-boundary step first, then the steps of the left recursion, then of the right
recursion (on the array the left call mutated), then the steps of `merge` —
which are exactly its per-element "selected" (push) steps followed by its
per-element "written-back" steps, one of each per position; the delegates'
return values are discarded and the outer producer returns its own final
value.  On `[5,3,1]` the full flattened sequence and the per-step mutation
snapshot are computed explicitly. -/
theorem mergeSort_delegation :
    (∀ (a : List Int) (i j : Int), i < j →
      (mergeSortFrom a i j).1 =
        ⟨a, record3 i "yellow" ((j - i).fdiv 2 + i) "blue" j "green"⟩ ::
          ((mergeSortFrom a i ((j - i).fdiv 2 + i)).1 ++
           (mergeSortFrom (mergeSortFrom a i ((j - i).fdiv 2 + i)).2.result
             ((j - i).fdiv 2 + i + 1) j).1 ++
           (merge (mergeSortFrom (mergeSortFrom a i ((j - i).fdiv 2 + i)).2.result
             ((j - i).fdiv 2 + i + 1) j).2.result i ((j - i).fdiv 2 + i) j).1) ∧
      (mergeSortFrom a i j).2 =
        ⟨(merge (mergeSortFrom (mergeSortFrom a i ((j - i).fdiv 2 + i)).2.result
            ((j - i).fdiv 2 + i + 1) j).2.result i ((j - i).fdiv 2 + i) j).2.result,
         []⟩) ∧
    (∀ (a : List Int) (i middle j : Int), 0 ≤ i → i ≤ middle → middle < j →
      j < (a.length : Int) →
      (merge a i middle j).1 =
        (mergePhaseA a middle j i (middle + 1) []).1 ++
          (writeBackGo a i (mergePhaseA a middle j i (middle + 1) []).2).1 ∧
      (mergePhaseA a middle j i (middle + 1) []).1.length = (j + 1 - i).toNat ∧
      (writeBackGo a i (mergePhaseA a middle j i (middle + 1) []).2).1.length =
        (j + 1 - i).toNat ∧
      (∀ s ∈ (mergePhaseA a middle j i (middle + 1) []).1, s.result = a)) ∧
    (mergeSort [5, 3, 1]).1 =
      [⟨[5, 3, 1], [(0, "yellow"), (1, "blue"), (2, "green")]⟩,
       ⟨[5, 3, 1], [(0, "blue"), (1, "green")]⟩,
       ⟨[5, 3, 1], [(0, "green")]⟩,
       ⟨[5, 3, 1], [(1, "green")]⟩,
       ⟨[5, 3, 1], [(0, "blue"), (1, "red")]⟩,
       ⟨[5, 3, 1], [(0, "red")]⟩,
       ⟨[5, 3, 1], [(0, "yellow")]⟩,
       ⟨[3, 3, 1], [(1, "yellow")]⟩,
       ⟨[3, 5, 1], [(2, "green")]⟩,
       ⟨[3, 5, 1], [(1, "blue"), (2, "red")]⟩,
       ⟨[3, 5, 1], [(1, "blue"), (0, "red")]⟩,
       ⟨[3, 5, 1], [(1, "red")]⟩,
       ⟨[3, 5, 1], [(0, "yellow")]⟩,
       ⟨[1, 5, 1], [(1, "yellow")]⟩,
       ⟨[1, 3, 1], [(2, "yellow")]⟩] ∧
    (mergeSort [5, 3, 1]).2 = ⟨[1, 3, 5], []⟩ := by
  refine ⟨?_, ?_, ?_, ?_⟩
  · intro a i j hij
    rw [mergeSortFrom_rec a i j (by omega)]
    exact ⟨rfl, rfl⟩
  · intro a i middle j h0 him hmj hjl
    obtain ⟨_, _, _, _, _, _, M7, M8, M9, M10⟩ := merge_spec a i middle j h0 him hmj hjl
    exact ⟨M7, M8, M9, M10⟩
  · simp [mergeSort, mergeSortFrom, merge, mergeLoop1, mergeLoop2, mergeLoop3,
      writeBackGo, push, getI, setI, record1, record2, record3, recordSet, Int.fdiv]
  · simp [mergeSort, mergeSortFrom, merge, mergeLoop1, mergeLoop2, mergeLoop3,
      writeBackGo, push, getI, setI, record1, record2, record3, recordSet, Int.fdiv]

/-- Witness for C3, instantiating the universal clauses concretely. -/
theorem mergeSort_delegation_witness :
    ((0 : Int) < 1 ∧
      (mergeSortFrom [2, 1] 0 1).1 =
        ⟨[2, 1], record3 0 "yellow" (((1 : Int) - 0).fdiv 2 + 0) "blue" 1 "green"⟩ ::
          ((mergeSortFrom [2, 1] 0 (((1 : Int) - 0).fdiv 2 + 0)).1 ++
           (mergeSortFrom (mergeSortFrom [2, 1] 0 (((1 : Int) - 0).fdiv 2 + 0)).2.result
             (((1 : Int) - 0).fdiv 2 + 0 + 1) 1).1 ++
           (merge (mergeSortFrom (mergeSortFrom [2, 1] 0
               (((1 : Int) - 0).fdiv 2 + 0)).2.result
             (((1 : Int) - 0).fdiv 2 + 0 + 1) 1).2.result 0
             (((1 : Int) - 0).fdiv 2 + 0) 1).1)) ∧
    ((mergePhaseA [2, 1] 0 1 0 (0 + 1) []).1.length = ((1 : Int) + 1 - 0).toNat) :=
  ⟨⟨by decide, ((mergeSort_delegation.1) [2, 1] 0 1 (by decide)).1⟩,
   ((mergeSort_delegation.2.1) [2, 1] 0 0 1 (by decide) (by decide) (by decide)
     (by decide)).2.1⟩

/-! ### Equivalence of the two AoC day 2 part 1 solutions -/

theorem balls_fold (bs : List String) (acc : BallCounts)
    (hwf : ∀ b ∈ bs, wellFormedBall b = true)
    (hr : ∃ r, acc.red = some r) (hg : ∃ g, acc.green = some g)
    (hb : ∃ b2, acc.blue = some b2) :
    ((∃ r, (bs.foldl applyBall acc).red = some r) ∧
     (∃ g, (bs.foldl applyBall acc).green = some g) ∧
     (∃ b2, (bs.foldl applyBall acc).blue = some b2)) ∧
    withinLimits (bs.foldl applyBall acc) = (withinLimits acc && bs.all checkBall) := by
  induction bs generalizing acc with
  | nil =>
    refine ⟨⟨hr, hg, hb⟩, ?_⟩
    simp
  | cons b bs ih =>
    have hwfb := hwf b (List.mem_cons_self b bs)
    simp only [wellFormedBall, Bool.and_eq_true, Bool.or_eq_true, beq_iff_eq,
      Option.isSome_iff_exists] at hwfb
    obtain ⟨⟨hlen, n, hn⟩, hcolor⟩ := hwfb
    have hwfr : ∀ x ∈ bs, wellFormedBall x = true :=
      fun x hx => hwf x (List.mem_cons_of_mem b hx)
    obtain ⟨r, hrv⟩ := hr
    obtain ⟨g, hgv⟩ := hg
    obtain ⟨b2, hbv⟩ := hb
    rw [List.foldl_cons, List.all_cons]
    rcases hcolor with (hc | hc) | hc
    · simp only [List.getD_eq_getElem?_getD] at hc hn
      have happ : applyBall acc b = { acc with red := some (max r n) } := by
        simp [applyBall, hc, hn, hrv, jsMax]
      have ihh := ih (applyBall acc b) hwfr
        (by rw [happ]; exact ⟨max r n, rfl⟩) (by rw [happ]; exact ⟨g, hgv⟩)
        (by rw [happ]; exact ⟨b2, hbv⟩)
      refine ⟨ihh.1, ?_⟩
      rw [ihh.2]
      have hW : withinLimits (applyBall acc b) = (withinLimits acc && checkBall b) := by
        rw [happ]
        simp [withinLimits, optLe, checkBall, hc, hn, optGt, hrv, hgv, hbv, max_le_iff,
          ← decide_not, not_lt, Bool.and_assoc, Bool.and_comm, Bool.and_left_comm]
      rw [hW, Bool.and_assoc]
    · simp only [List.getD_eq_getElem?_getD] at hc hn
      have happ : applyBall acc b = { acc with green := some (max g n) } := by
        simp [applyBall, hc, hn, hgv, jsMax]
      have ihh := ih (applyBall acc b) hwfr
        (by rw [happ]; exact ⟨r, hrv⟩) (by rw [happ]; exact ⟨max g n, rfl⟩)
        (by rw [happ]; exact ⟨b2, hbv⟩)
      refine ⟨ihh.1, ?_⟩
      rw [ihh.2]
      have hW : withinLimits (applyBall acc b) = (withinLimits acc && checkBall b) := by
        rw [happ]
        simp [withinLimits, optLe, checkBall, hc, hn, optGt, hrv, hgv, hbv, max_le_iff,
          ← decide_not, not_lt, Bool.and_assoc, Bool.and_comm, Bool.and_left_comm]
      rw [hW, Bool.and_assoc]
    · simp only [List.getD_eq_getElem?_getD] at hc hn
      have happ : applyBall acc b = { acc with blue := some (max b2 n) } := by
        simp [applyBall, hc, hn, hbv, jsMax]
      have ihh := ih (applyBall acc b) hwfr
        (by rw [happ]; exact ⟨r, hrv⟩) (by rw [happ]; exact ⟨g, hgv⟩)
        (by rw [happ]; exact ⟨max b2 n, rfl⟩)
      refine ⟨ihh.1, ?_⟩
      rw [ihh.2]
      have hW : withinLimits (applyBall acc b) = (withinLimits acc && checkBall b) := by
        rw [happ]
        simp [withinLimits, optLe, checkBall, hc, hn, optGt, hrv, hgv, hbv, max_le_iff,
          ← decide_not, not_lt, Bool.and_assoc, Bool.and_comm, Bool.and_left_comm]
      rw [hW, Bool.and_assoc]

theorem reveals_fold (rs : List String) (acc : BallCounts)
    (hwf : ∀ rv ∈ rs, (jsSplit rv ", ").all wellFormedBall = true)
    (hr : ∃ r, acc.red = some r) (hg : ∃ g, acc.green = some g)
    (hb : ∃ b2, acc.blue = some b2) :
    withinLimits
      (rs.foldl (fun acc reveal => (jsSplit reveal ", ").foldl applyBall acc) acc) =
      (withinLimits acc && rs.all checkReveal) := by
  induction rs generalizing acc with
  | nil => simp
  | cons rv rs ih =>
    rw [List.foldl_cons, List.all_cons]
    have hb1 := balls_fold (jsSplit rv ", ") acc
      (List.all_eq_true.1 (hwf rv (List.mem_cons_self rv rs))) hr hg hb
    rw [ih _ (fun x hx => hwf x (List.mem_cons_of_mem rv hx)) hb1.1.1 hb1.1.2.1 hb1.1.2.2,
      hb1.2, show (jsSplit rv ", ").all checkBall = checkReveal rv from rfl,
      Bool.and_assoc]

/-- C10: on every well-formed puzzle input, the two Part 1
implementations — the first accepting a game when `checkReveal` holds of
every reveal, the second accumulating per-colour maxima in `leastNumOfBalls`
and comparing them with the limits 12/13/14 — return the same sum of game
ids. -/
theorem aoc_part1_implementations_agree (input : String)
    (hwf : wellFormedInput input = true) :
    part1First input = part1Second input := by
  rw [wellFormedInput] at hwf
  rw [part1First, part1Second]
  refine List.foldl_ext _ _ (some 0) ?_
  intro sum game hmem
  have hwl : wellFormedLine game = true := List.all_eq_true.1 hwf game hmem
  simp only [wellFormedLine, Bool.and_eq_true] at hwl
  obtain ⟨⟨hlen2, hid⟩, hrev⟩ := hwl
  have hcond := reveals_fold (jsSplit ((jsSplit game ": ").getD 1 "") "; ")
    ⟨some 0, some 0, some 0⟩
    (fun rv hrv => by
      have := List.all_eq_true.1 hrev rv hrv
      simpa using this)
    ⟨0, rfl⟩ ⟨0, rfl⟩ ⟨0, rfl⟩
  simp only [withinLimits] at hcond
  simp only []
  rw [hcond]
  simp [optLe]

/-- Witness for C10 on a concrete well-formed input. -/
theorem aoc_part1_implementations_agree_witness :
    wellFormedInput "Game 1: 3 blue, 4 red; 1 red" = true ∧
    part1First "Game 1: 3 blue, 4 red; 1 red" =
      part1Second "Game 1: 3 blue, 4 red; 1 red" :=
  ⟨by decide, aoc_part1_implementations_agree _ (by decide)⟩
